import Mathlib

/-!
Verification of the fuzzy-search engine of `src/gui.py`.

Data model: a record (row of the `ableton_live_sets` table) is a list of
optional string values, positionally aligned with the schema's ordered list
of column names (`columns_info`).  Python values are modelled by their string
forms (the code applies `str` before scoring), so a field value is
`Option (List Char)`; `none` models SQL NULL.

The third-party scoring primitive `fuzzywuzzy.fuzz.ratio` is embedded from
the library's source: argument guards returning 0 when either string is
empty, then `int(round(100 * ratio))` where `ratio = (T - dist) / T`,
`T` the total length of both strings and `dist` the Levenshtein edit
distance with substitution cost 2 (the python-Levenshtein backend).
Rounding is modelled exactly on rationals with ties to even, matching
Python's `round`; no claim below depends on a tie case.
-/

/-- A Python string: list of characters. -/
abbrev Str := List Char

/-- A database row: one optional string value per schema column. -/
abbrev Row := List (Option Str)

/-- Models Python's `str.lower()`, characterwise. -/
def pyLower (s : Str) : Str := s.map Char.toLower

/-- Models Python's `str(value)` as used in the rendering code: a present
string is itself, `None` renders as `"None"`. -/
def py_str (v : Option Str) : Str :=
  match v with
  | some s => s
  | none => "None".toList

/-- Length of a longest common subsequence of two strings.  Used to state
the spec's "number of matching characters found by a
longest-common-subsequence-like alignment". -/
def lcsLen : Str → Str → Nat
  | [], _ => 0
  | _ :: _, [] => 0
  | a :: s, b :: t =>
    if a = b then lcsLen s t + 1
    else max (lcsLen (a :: s) t) (lcsLen s (b :: t))
termination_by s t => s.length + t.length

/-- Levenshtein edit distance with insertion and deletion cost 1 and
substitution cost 2, as used by python-Levenshtein's `ratio`. -/
def lev2 : Str → Str → Nat
  | [], t => t.length
  | a :: s, [] => (a :: s).length
  | a :: s, b :: t =>
    if a = b then lev2 s t
    else min (min (lev2 s (b :: t) + 1) (lev2 (a :: s) t + 1)) (lev2 s t + 2)
termination_by s t => s.length + t.length

/-- Models `fuzzywuzzy.utils.intr`, i.e. Python's `int(round(num/den))`,
computed exactly on the rational `num/den` with ties rounded to even. -/
def intr (num den : Nat) : Nat :=
  if 2 * (num % den) < den then num / den
  else if den < 2 * (num % den) then num / den + 1
  else if num / den % 2 = 0 then num / den else num / den + 1

/-- Models `fuzzywuzzy.fuzz.ratio`: 0 when either string is empty
(the `check_empty_string` guard), otherwise `int(round(100 * ratio))` with
`ratio = (T - dist) / T`, `T = len s1 + len s2`, `dist` the
substitution-cost-2 Levenshtein distance. -/
def fuzz_ratio (s1 s2 : Str) : Nat :=
  if s1.length = 0 ∨ s2.length = 0 then 0
  else intr (100 * (s1.length + s2.length - lev2 s1 s2)) (s1.length + s2.length)

/-- The per-field score of `get_best_match_score` (src/gui.py line 62):
`fuzz.ratio(str(row[index]).lower(), query.lower())`. -/
def field_score (value query : Str) : Nat :=
  fuzz_ratio (pyLower value) (pyLower query)

/-- Models `get_best_match_score` (src/gui.py lines 57-64): fold of `max`
over the scores of the fields whose column name is not excluded and whose
value is not NULL, starting from 0.  The iteration walks the schema and the
row in lockstep (rows from `SELECT *` always have schema length). -/
def get_best_match_score (columnsInfo : List Str) (row : Row) (query : Str)
    (excludeColumns : List Str) : Nat :=
  match columnsInfo, row with
  | [], _ => 0
  | _ :: _, [] => 0
  | c :: cs, v :: vs =>
    let rest := get_best_match_score cs vs query excludeColumns
    match v with
    | none => rest
    | some s => if c ∈ excludeColumns then rest else max (field_score s query) rest

/-- The fixed excluded-column list of `perform_fuzzy_search`
(src/gui.py line 67). -/
def exclude_columns : List Str :=
  [ "uuid".toList, "identifier".toList, "xml_root".toList,
    "path".toList, "file_hash".toList, "last_scan_timestamp".toList ]

/-- Insert a scored row into a descending-sorted list, after every entry of
score ≥ its own: one step of a stable descending sort by score. -/
def insertDesc (x : Row × Nat) : List (Row × Nat) → List (Row × Nat)
  | [] => [x]
  | y :: ys => if y.2 ≤ x.2 then x :: y :: ys else y :: insertDesc x ys

/-- Models Python's `sorted(match_scores, key=lambda x: x[1], reverse=True)`
(src/gui.py line 77): a stable sort, descending by score. -/
def sortDesc : List (Row × Nat) → List (Row × Nat)
  | [] => []
  | x :: xs => insertDesc x (sortDesc xs)

/-- Models `perform_fuzzy_search` (src/gui.py lines 66-83), with the record
source's rows passed explicitly: score every row, sort descending by score
(stably), keep the first 10. -/
def perform_fuzzy_search (columnsInfo : List Str) (allRows : List Row)
    (query : Str) : List (Row × Nat) :=
  let match_scores := allRows.map (fun row =>
    (row, get_best_match_score columnsInfo row query exclude_columns))
  let sorted_matches := sortDesc match_scores
  sorted_matches.take 10

/-- Models `SearchApp.headers` (src/gui.py line 91): the schema's column
names minus the excluded ones, in schema order. -/
def headers (columnsInfo : List Str) : List Str :=
  columnsInfo.filter (fun c => decide (c ∉ exclude_columns))

/-- Models the rendering of one match row into the table
(src/gui.py lines 127-137): the string forms of the non-excluded fields in
schema order.  (`headers.index` places the j-th non-excluded column in
slot j; column names of a SQL table are distinct.) -/
def display_row (columnsInfo : List Str) (row : Row) : List Str :=
  (columnsInfo.zip row).filterMap (fun cv =>
    if cv.1 ∈ exclude_columns then none else some (py_str cv.2))

/-- Models `SearchApp.perform_search` (src/gui.py lines 117-137) as the
table contents it produces: an empty query clears the table without calling
the engine; otherwise the engine's matches are rendered row by row. -/
def perform_search (columnsInfo : List Str) (allRows : List Row)
    (query : Str) : List (List Str) :=
  if query = [] then []
  else (perform_fuzzy_search columnsInfo allRows query).map
    (fun p => display_row columnsInfo p.1)

/-- Spec-side (step 1-2 of §4.2): the list of per-field scores of the
positions whose column name is not excluded and whose value is not NULL. -/
def visibleFieldScores (columnsInfo : List Str) (row : Row) (query : Str)
    (excludeColumns : List Str) : List Nat :=
  (columnsInfo.zip row).filterMap (fun cv =>
    match cv.2 with
    | none => none
    | some s => if cv.1 ∈ excludeColumns then none else some (field_score s query))


/-! ### Facts about `lcsLen` and `lev2` -/
theorem lcsLen_aux : ∀ n (s t : Str), s.length + t.length ≤ n →
    (∀ b, lcsLen s t ≤ lcsLen s (b :: t)) ∧
    (∀ a, lcsLen (a :: s) t ≤ lcsLen s t + 1) := by
  intro n
  induction n with
  | zero =>
    intro s t h
    have hs : s = [] := by cases s <;> simp_all
    have ht : t = [] := by cases t <;> simp_all
    subst hs; subst ht
    constructor
    · intro b; simp [lcsLen]
    · intro a; simp [lcsLen]
  | succ n ihn =>
    intro s t h
    constructor
    · intro b
      cases s with
      | nil => simp [lcsLen]
      | cons c s' =>
        by_cases hcb : c = b
        · subst hcb
          simp only [lcsLen, if_true, eq_self_iff_true]
          have := (ihn s' t (by simp at h; omega)).2 c
          simpa using this
        · simp only [lcsLen, if_neg hcb]
          exact le_max_left _ _
    · intro a
      cases t with
      | nil => simp [lcsLen]
      | cons b t' =>
        by_cases hab : a = b
        · subst hab
          simp only [lcsLen, if_true, eq_self_iff_true]
          have := (ihn s t' (by simp at h; omega)).1 a
          simp only [lcsLen] at this ⊢
          omega
        · simp only [lcsLen, if_neg hab]
          apply max_le
          · have h1 := (ihn s t' (by simp at h; omega)).2 a
            have h2 := (ihn s t' (by simp at h; omega)).1 b
            omega
          · omega

theorem lcsLen_le_cons_right (s t : Str) (b : Char) :
    lcsLen s t ≤ lcsLen s (b :: t) :=
  (lcsLen_aux (s.length + t.length) s t le_rfl).1 b

theorem lev2_add_two_lcsLen : ∀ (s t : Str),
    lev2 s t + 2 * lcsLen s t = s.length + t.length := by
  intro s
  induction s with
  | nil => intro t; simp [lev2, lcsLen]
  | cons a s ih =>
    intro t
    induction t with
    | nil => simp [lev2, lcsLen]
    | cons b t iht =>
      by_cases hab : a = b
      · subst hab
        simp only [lev2, lcsLen, if_true, eq_self_iff_true, List.length_cons]
        have := ih t
        omega
      · simp only [lev2, lcsLen, if_neg hab, List.length_cons]
        have hx := ih (b :: t)
        have hy := iht
        have hz := ih t
        have hZX : lcsLen s t ≤ lcsLen s (b :: t) := lcsLen_le_cons_right s t b
        simp only [List.length_cons] at hx hy hz
        rcases Nat.le_total (lcsLen s (b :: t)) (lcsLen (a :: s) t) with hle | hle
        · rw [Nat.max_eq_left hle,
            Nat.min_eq_right (by omega :
              lev2 (a :: s) t + 1 ≤ lev2 s (b :: t) + 1),
            Nat.min_eq_left (by omega :
              lev2 (a :: s) t + 1 ≤ lev2 s t + 2)]
          omega
        · rw [Nat.max_eq_right hle,
            Nat.min_eq_left (by omega :
              lev2 s (b :: t) + 1 ≤ lev2 (a :: s) t + 1),
            Nat.min_eq_left (by omega :
              lev2 s (b :: t) + 1 ≤ lev2 s t + 2)]
          omega

theorem lev2_self : ∀ s : Str, lev2 s s = 0 := by
  intro s
  induction s with
  | nil => simp [lev2]
  | cons a s ih => simp [lev2, ih]

/-! ### Facts about `intr`, `fuzz_ratio` and `field_score` -/

theorem intr_hundred (den : Nat) (h : 0 < den) : intr (100 * den) den = 100 := by
  unfold intr
  simp only [Nat.mul_div_cancel _ h, Nat.mul_mod_left]
  simp [h]

theorem intr_le_hundred (num den : Nat) (hle : num ≤ 100 * den) (hd : 0 < den) :
    intr num den ≤ 100 := by
  unfold intr
  have hq : num / den ≤ 100 := by
    calc num / den ≤ 100 * den / den := Nat.div_le_div_right hle
    _ = 100 := Nat.mul_div_cancel _ hd
  by_cases h100 : num / den = 100
  · have hmod : num % den = 0 := by
      have := Nat.div_add_mod num den
      rw [h100] at this
      omega
    rw [hmod]
    simp [hd, h100]
  · split <;> [omega; (split <;> [omega; (split <;> omega)])]

theorem fuzz_ratio_le_hundred (s1 s2 : Str) : fuzz_ratio s1 s2 ≤ 100 := by
  unfold fuzz_ratio
  split
  · omega
  · rename_i h
    push_neg at h
    apply intr_le_hundred
    · exact Nat.mul_le_mul_left 100 (Nat.sub_le _ _)
    · omega

theorem fuzz_ratio_self (s : Str) (h : s ≠ []) : fuzz_ratio s s = 100 := by
  have hlen : s.length ≠ 0 := by simpa using h
  unfold fuzz_ratio
  rw [if_neg (by omega), lev2_self, Nat.sub_zero]
  exact intr_hundred _ (by omega)

theorem pyLower_length (s : Str) : (pyLower s).length = s.length := by
  simp [pyLower]

theorem field_score_le_hundred (v q : Str) : field_score v q ≤ 100 :=
  fuzz_ratio_le_hundred _ _

theorem field_score_empty_query (v : Str) : field_score v [] = 0 := by
  simp [field_score, fuzz_ratio, pyLower]

/-- An exact case-insensitive match of a non-empty query scores 100. -/
theorem field_score_exact (v q : Str) (hq : q ≠ [])
    (hmatch : pyLower v = pyLower q) : field_score v q = 100 := by
  unfold field_score
  rw [hmatch]
  apply fuzz_ratio_self
  intro hnil
  exact hq (List.map_eq_nil_iff.mp hnil)

/-! ### Facts about `get_best_match_score` -/

theorem get_best_match_score_le_hundred (cols : List Str) (row : Row)
    (q : Str) (excl : List Str) : get_best_match_score cols row q excl ≤ 100 := by
  induction cols generalizing row with
  | nil => simp [get_best_match_score]
  | cons c cs ih =>
    cases row with
    | nil => simp [get_best_match_score]
    | cons v vs =>
      cases v with
      | none => simpa [get_best_match_score] using ih vs
      | some s =>
        simp only [get_best_match_score]
        split
        · exact ih vs
        · exact max_le (field_score_le_hundred _ _) (ih vs)

theorem get_best_match_score_empty_query (cols : List Str) (row : Row)
    (excl : List Str) : get_best_match_score cols row [] excl = 0 := by
  induction cols generalizing row with
  | nil => simp [get_best_match_score]
  | cons c cs ih =>
    cases row with
    | nil => simp [get_best_match_score]
    | cons v vs =>
      cases v with
      | none => simpa [get_best_match_score] using ih vs
      | some s =>
        simp only [get_best_match_score]
        split
        · exact ih vs
        · rw [field_score_empty_query, ih vs]
          omega

/-- The best score is at least the score of any visible field. -/
theorem get_best_match_score_ge_field (cols : List Str) (row : Row)
    (q : Str) (excl : List Str) (i : Nat) (c : Str) (s : Str)
    (hc : cols[i]? = some c) (hnotex : c ∉ excl)
    (hv : row[i]? = some (some s)) :
    field_score s q ≤ get_best_match_score cols row q excl := by
  induction cols generalizing row i with
  | nil => simp at hc
  | cons c0 cs ih =>
    cases row with
    | nil => simp at hv
    | cons v vs =>
      cases i with
      | zero =>
        simp only [List.getElem?_cons_zero, Option.some.injEq] at hc hv
        subst hc; subst hv
        simp only [get_best_match_score, if_neg hnotex]
        exact le_max_left _ _
      | succ j =>
        simp only [List.getElem?_cons_succ] at hc hv
        have hrest := ih vs j hc hv
        cases v with
        | none => simpa [get_best_match_score] using hrest
        | some s0 =>
          simp only [get_best_match_score]
          split
          · exact hrest
          · exact le_max_of_le_right hrest

/-! ### Facts about the stable descending sort -/

theorem insertDesc_perm (x : Row × Nat) (l : List (Row × Nat)) :
    (insertDesc x l).Perm (x :: l) := by
  induction l with
  | nil => simp [insertDesc]
  | cons y ys ih =>
    simp only [insertDesc]
    split
    · exact List.Perm.refl _
    · exact (ih.cons y).trans (List.Perm.swap x y ys)

theorem sortDesc_perm (l : List (Row × Nat)) : (sortDesc l).Perm l := by
  induction l with
  | nil => simp [sortDesc]
  | cons x xs ih => exact (insertDesc_perm x (sortDesc xs)).trans (ih.cons x)

theorem insertDesc_pairwise (x : Row × Nat) (l : List (Row × Nat))
    (h : l.Pairwise (fun a b => b.2 ≤ a.2)) :
    (insertDesc x l).Pairwise (fun a b => b.2 ≤ a.2) := by
  induction l with
  | nil => simp [insertDesc]
  | cons y ys ih =>
    rcases List.pairwise_cons.mp h with ⟨hy, hys⟩
    simp only [insertDesc]
    split
    · rename_i hle
      refine List.pairwise_cons.mpr ⟨?_, h⟩
      intro z hz
      rcases List.mem_cons.mp hz with rfl | hz'
      · exact hle
      · exact le_trans (hy z hz') hle
    · rename_i hgt
      refine List.pairwise_cons.mpr ⟨?_, ih hys⟩
      intro z hz
      rcases List.mem_cons.mp ((insertDesc_perm x ys).mem_iff.mp hz) with rfl | hz'
      · omega
      · exact hy z hz'

theorem sortDesc_pairwise (l : List (Row × Nat)) :
    (sortDesc l).Pairwise (fun a b => b.2 ≤ a.2) := by
  induction l with
  | nil => simp [sortDesc]
  | cons x xs ih => exact insertDesc_pairwise x (sortDesc xs) ih

theorem insertDesc_filter_of_eq (x : Row × Nat) (l : List (Row × Nat)) (s : Nat)
    (hx : x.2 = s) :
    (insertDesc x l).filter (fun y => y.2 == s) =
      x :: l.filter (fun y => y.2 == s) := by
  induction l with
  | nil => simp [insertDesc, List.filter_cons, hx]
  | cons y ys ih =>
    simp only [insertDesc]
    split
    · rw [List.filter_cons, if_pos (by simp [hx])]
    · rename_i hgt
      have hy : (y.2 == s) = false := by
        simp only [beq_eq_false_iff_ne, ne_eq]
        omega
      rw [List.filter_cons, hy, ih, List.filter_cons, hy]
      simp

theorem insertDesc_filter_of_ne (x : Row × Nat) (l : List (Row × Nat)) (s : Nat)
    (hx : x.2 ≠ s) :
    (insertDesc x l).filter (fun y => y.2 == s) =
      l.filter (fun y => y.2 == s) := by
  have hxb : (x.2 == s) = false := by simp [hx]
  induction l with
  | nil => simp [insertDesc, List.filter_cons, hxb]
  | cons y ys ih =>
    simp only [insertDesc]
    split
    · rw [List.filter_cons, hxb]
      simp
    · rw [List.filter_cons, ih, List.filter_cons]

/-- Stability of the sort: the records carrying any fixed score appear in
the sorted list exactly as they appear in the input, in the same order. -/
theorem sortDesc_filter (l : List (Row × Nat)) (s : Nat) :
    (sortDesc l).filter (fun y => y.2 == s) =
      l.filter (fun y => y.2 == s) := by
  induction l with
  | nil => simp [sortDesc]
  | cons x xs ih =>
    simp only [sortDesc]
    by_cases hx : x.2 = s
    · rw [insertDesc_filter_of_eq x _ s hx, ih, List.filter_cons, if_pos (by simp [hx])]
    · rw [insertDesc_filter_of_ne x _ s hx, ih, List.filter_cons,
        if_neg (by simp [hx])]

theorem perform_fuzzy_search_def (cols : List Str) (rows : List Row) (q : Str) :
    perform_fuzzy_search cols rows q =
      (sortDesc (rows.map (fun row =>
        (row, get_best_match_score cols row q exclude_columns)))).take 10 := rfl

/-- C1: the record's overall score computed by `get_best_match_score` is the
maximum (with default 0) of the per-field scores of exactly the positions
whose column name is not excluded and whose value is not NULL; in particular
a record with no such position scores 0. -/
theorem c1_overall_score_is_max_of_visible_fields
    (cols : List Str) (row : Row) (q : Str) (excl : List Str) :
    get_best_match_score cols row q excl =
      (visibleFieldScores cols row q excl).foldr max 0 := by
  induction cols generalizing row with
  | nil => simp [get_best_match_score, visibleFieldScores]
  | cons c cs ih =>
    cases row with
    | nil => simp [get_best_match_score, visibleFieldScores]
    | cons v vs =>
      cases v with
      | none =>
        simpa [get_best_match_score, visibleFieldScores] using ih vs
      | some s =>
        by_cases hc : c ∈ excl
        · simpa [get_best_match_score, visibleFieldScores, hc] using ih vs
        · simpa [get_best_match_score, visibleFieldScores, hc] using
            congrArg (max (field_score s q)) (ih vs)

/-- C4: the engine returns exactly `min 10 (number of records)` entries. -/
theorem c4_result_length_min_topk (cols : List Str) (rows : List Row) (q : Str) :
    (perform_fuzzy_search cols rows q).length = min 10 rows.length := by
  rw [perform_fuzzy_search_def, List.length_take, (sortDesc_perm _).length_eq,
    List.length_map]

/-- C8: every per-record score is between 0 and 100. -/
theorem c8_score_bounds (cols : List Str) (row : Row) (q : Str)
    (excl : List Str) :
    0 ≤ get_best_match_score cols row q excl ∧
    get_best_match_score cols row q excl ≤ 100 :=
  ⟨Nat.zero_le _, get_best_match_score_le_hundred cols row q excl⟩

/-- C6: changing only the value at a position whose column name is excluded
never changes the record's score. -/
theorem c6_excluded_fields_no_influence (cols : List Str) (row : Row)
    (q : Str) (excl : List Str) (j : Nat) (c : Str) (v : Option Str)
    (hc : cols[j]? = some c) (hex : c ∈ excl) :
    get_best_match_score cols (row.set j v) q excl =
      get_best_match_score cols row q excl := by
  induction cols generalizing row j with
  | nil => simp at hc
  | cons c0 cs ih =>
    cases row with
    | nil => simp [List.set]
    | cons v0 vs =>
      cases j with
      | zero =>
        simp only [List.getElem?_cons_zero, Option.some.injEq] at hc
        subst hc
        simp only [List.set]
        cases v <;> cases v0 <;> simp [get_best_match_score, hex]
      | succ j' =>
        simp only [List.getElem?_cons_succ] at hc
        simp only [List.set]
        cases v0 <;> simp [get_best_match_score, ih vs j' hc]

/-- C10: the record's score only depends on the query through its lowercase
form, so two queries equal up to letter case give identical scores. -/
theorem c10_query_case_invariance (cols : List Str) (row : Row)
    (excl : List Str) (q1 q2 : Str) (h : pyLower q1 = pyLower q2) :
    get_best_match_score cols row q1 excl =
      get_best_match_score cols row q2 excl := by
  have hf : ∀ s, field_score s q1 = field_score s q2 := by
    intro s; unfold field_score; rw [h]
  induction cols generalizing row with
  | nil => simp [get_best_match_score]
  | cons c cs ih =>
    cases row with
    | nil => simp [get_best_match_score]
    | cons v vs =>
      cases v with
      | none => simpa [get_best_match_score] using ih vs
      | some s => simp [get_best_match_score, hf s, ih vs]

theorem intr_zero (den : Nat) (h : 0 < den) : intr 0 den = 0 := by
  unfold intr
  simp [Nat.zero_mod, Nat.zero_div, h]

/-- C2: the per-field score is the classic Levenshtein "ratio" metric on the
lowercased strings: `round(100 * 2*M / T)` with `M` the number of matched
characters of an optimal alignment (a longest common subsequence) and `T`
the total length of the two strings (stated whenever `T` is non-zero; on two
empty strings the library's guard returns 0 and the ratio is undefined). -/
theorem c2_field_score_is_levenshtein_ratio (value query : Str)
    (h : value.length + query.length ≠ 0) :
    field_score value query =
      intr (100 * (2 * lcsLen (pyLower value) (pyLower query)))
        (value.length + query.length) := by
  unfold field_score fuzz_ratio
  by_cases hv : value.length = 0
  · have hvnil : value = [] := List.length_eq_zero.mp hv
    subst hvnil
    simp only [pyLower, List.map_nil, List.length_nil, true_or, if_pos]
    rw [show lcsLen [] (List.map Char.toLower query) = 0 from by simp [lcsLen]]
    rw [Nat.mul_zero, intr_zero _ (by omega)]
  · by_cases hq : query.length = 0
    · have hqnil : query = [] := List.length_eq_zero.mp hq
      subst hqnil
      simp only [pyLower, List.map_nil, List.length_nil, or_true, if_pos]
      rw [show lcsLen (List.map Char.toLower value) [] = 0 from by
        cases value <;> simp [lcsLen]]
      rw [Nat.mul_zero, intr_zero _ (by omega)]
    · rw [if_neg (by rw [pyLower_length, pyLower_length]; omega)]
      have hdual := lev2_add_two_lcsLen (pyLower value) (pyLower query)
      rw [pyLower_length, pyLower_length] at hdual
      rw [pyLower_length, pyLower_length]
      congr 1
      omega

/-- C3: the engine's result list is descending in score, and the entries
carrying any fixed score form, in order, a sublist of the scored input
sequence, i.e. equal-score records keep the relative order in which the
records were received. -/
theorem c3_sorted_desc_and_stable (cols : List Str) (rows : List Row)
    (q : Str) :
    (perform_fuzzy_search cols rows q).Pairwise (fun a b => b.2 ≤ a.2) ∧
    ∀ s : Nat,
      List.Sublist
        ((perform_fuzzy_search cols rows q).filter (fun y => y.2 == s))
        ((rows.map (fun row =>
          (row, get_best_match_score cols row q exclude_columns))).filter
            (fun y => y.2 == s)) := by
  rw [perform_fuzzy_search_def]
  constructor
  · exact (sortDesc_pairwise _).sublist (List.take_sublist 10 _)
  · intro s
    have hsub := (List.take_sublist 10
      (sortDesc (rows.map (fun row =>
        (row, get_best_match_score cols row q exclude_columns))))).filter
      (fun y => y.2 == s)
    rwa [sortDesc_filter] at hsub

/-- C5 counterexample: on a one-record store, the engine's search with the
empty query returns one zero-score entry, not an empty list (the empty
result on empty query is produced by the GUI layer, which never calls the
engine then). -/
theorem c5_counterexample :
    perform_fuzzy_search ["name".toList] [[some "abc".toList]] [] ≠ [] := by
  decide

/-- C5 amended: on an empty query the GUI's `perform_search` clears the
table (empty output) without invoking the engine, while the engine's
`perform_fuzzy_search` itself returns `min 10 (len R)` entries, each with
score 0. -/
theorem c5_gui_empty_query_clears_table (cols : List Str) (rows : List Row)
    (_hrows : rows ≠ []) :
    perform_search cols rows [] = [] ∧
    (perform_fuzzy_search cols rows []).length = min 10 rows.length ∧
    ∀ p ∈ perform_fuzzy_search cols rows [], p.2 = 0 := by
  refine ⟨by simp [perform_search], ?_, ?_⟩
  · rw [perform_fuzzy_search_def, List.length_take, (sortDesc_perm _).length_eq,
      List.length_map]
  · intro p hp
    rw [perform_fuzzy_search_def] at hp
    have hmem := (sortDesc_perm _).mem_iff.mp ((List.take_sublist 10 _).subset hp)
    obtain ⟨r, hr, rfl⟩ := List.mem_map.mp hmem
    exact get_best_match_score_empty_query cols r exclude_columns

theorem c5_witness :
    ([[some "a".toList]] : List Row) ≠ [] ∧
    (perform_search ["name".toList] [[some "a".toList]] [] = [] ∧
     (perform_fuzzy_search ["name".toList] [[some "a".toList]] []).length =
       min 10 ([[some "a".toList]] : List Row).length ∧
     ∀ p ∈ perform_fuzzy_search ["name".toList] [[some "a".toList]] [],
       p.2 = 0) :=
  ⟨by decide, c5_gui_empty_query_clears_table ["name".toList]
    [[some "a".toList]] (by decide)⟩

/-- A full-schema-length row renders to exactly one cell per non-excluded
column. -/
theorem display_row_length (cols : List Str) (r : Row)
    (h : r.length = cols.length) :
    (display_row cols r).length = (headers cols).length := by
  induction cols generalizing r with
  | nil =>
    cases r with
    | nil => simp [display_row, headers]
    | cons v vs => simp at h
  | cons c cs ih =>
    cases r with
    | nil => simp at h
    | cons v vs =>
      have hlen : vs.length = cs.length := by simpa using h
      have hih := ih vs hlen
      simp only [display_row, headers] at hih
      by_cases hc : c ∈ exclude_columns
      · simpa [display_row, headers, hc,
          List.zip_cons_cons, List.filterMap_cons, List.filter_cons] using hih
      · simpa [display_row, headers, hc,
          List.zip_cons_cons, List.filterMap_cons, List.filter_cons] using hih

/-- C9: every entry of the engine's result pairs its score with a source
record tuple completely unmodified (it is a member of the input, excluded
positions included), and only the rendering step drops columns: the
displayed row has one cell per non-excluded column. -/
theorem c9_engine_preserves_records (cols : List Str) (rows : List Row)
    (q : Str) (halign : ∀ r ∈ rows, r.length = cols.length) (p : Row × Nat)
    (hp : p ∈ perform_fuzzy_search cols rows q) :
    p.1 ∈ rows ∧
    p.2 = get_best_match_score cols p.1 q exclude_columns ∧
    (display_row cols p.1).length = (headers cols).length := by
  rw [perform_fuzzy_search_def] at hp
  have hmem := (sortDesc_perm _).mem_iff.mp ((List.take_sublist 10 _).subset hp)
  obtain ⟨r, hr, rfl⟩ := List.mem_map.mp hmem
  exact ⟨hr, rfl, display_row_length cols r (halign r hr)⟩

theorem c9_witness :
    (∀ r ∈ ([[none]] : List Row), r.length = (["name".toList] : List Str).length) ∧
    (([none], 0) : Row × Nat) ∈
      perform_fuzzy_search ["name".toList] [[none]] "a".toList ∧
    (([none] : Row) ∈ ([[none]] : List Row) ∧
     (0 : Nat) = get_best_match_score ["name".toList] [none] "a".toList
       exclude_columns ∧
     (display_row ["name".toList] [none]).length =
       (headers ["name".toList]).length) :=
  ⟨by decide, by decide,
    c9_engine_preserves_records ["name".toList] [[none]] "a".toList
      (by decide) ([none], 0) (by decide)⟩

/-- C7 amended: provided the query is non-empty, a record A with a
non-excluded non-null field whose lowercased string form equals the
lowercased query (score 100) appears strictly before any record B whose
best score is below 100 wherever B appears in the ranked result. -/
theorem c7_exact_match_ranks_above (cols : List Str) (rows : List Row)
    (q : Str) (A B : Row) (hA : A ∈ rows) (hq : q ≠ [])
    (i : Nat) (c s : Str) (hc : cols[i]? = some c)
    (hcex : c ∉ exclude_columns) (hv : A[i]? = some (some s))
    (hmatch : pyLower s = pyLower q)
    (hBfar : get_best_match_score cols B q exclude_columns < 100) :
    ∀ j : Nat, (perform_fuzzy_search cols rows q)[j]? =
        some (B, get_best_match_score cols B q exclude_columns) →
      ∃ k : Nat, k < j ∧ (perform_fuzzy_search cols rows q)[k]? =
        some (A, get_best_match_score cols A q exclude_columns) := by
  intro j hj
  have hA100 : get_best_match_score cols A q exclude_columns = 100 := by
    apply le_antisymm (get_best_match_score_le_hundred _ _ _ _)
    have hge := get_best_match_score_ge_field cols A q exclude_columns i c s hc
      hcex hv
    rwa [field_score_exact s q hq hmatch] at hge
  have hout := perform_fuzzy_search_def cols rows q
  rw [hout] at hj
  have hj10 : j < 10 := by
    rcases List.getElem?_eq_some_iff.mp hj with ⟨hlt, _⟩
    rw [List.length_take] at hlt
    omega
  have hjL : (sortDesc (rows.map (fun row =>
      (row, get_best_match_score cols row q exclude_columns))))[j]? =
      some (B, get_best_match_score cols B q exclude_columns) := by
    have htake : ((sortDesc (rows.map (fun row =>
        (row, get_best_match_score cols row q exclude_columns)))).take 10)[j]? =
        (sortDesc (rows.map (fun row =>
          (row, get_best_match_score cols row q exclude_columns))))[j]? :=
      List.getElem?_take_of_lt hj10
    rw [← htake]
    exact hj
  have hAL : (A, (100 : Nat)) ∈ sortDesc (rows.map (fun row =>
      (row, get_best_match_score cols row q exclude_columns))) := by
    apply (sortDesc_perm _).mem_iff.mpr
    have hmem2 : (A, get_best_match_score cols A q exclude_columns) ∈
        rows.map (fun row =>
          (row, get_best_match_score cols row q exclude_columns)) :=
      List.mem_map_of_mem _ hA
    rwa [hA100] at hmem2
  obtain ⟨k, hk⟩ := List.mem_iff_getElem?.mp hAL
  have hsorted := sortDesc_pairwise (rows.map (fun row =>
    (row, get_best_match_score cols row q exclude_columns)))
  rcases List.getElem?_eq_some_iff.mp hk with ⟨hkl, hkv⟩
  rcases List.getElem?_eq_some_iff.mp hjL with ⟨hjl, hjv⟩
  have hkj : k < j := by
    rcases Nat.lt_trichotomy k j with h | h | h
    · exact h
    · exfalso
      subst h
      have heq := hkv.symm.trans hjv
      have := congrArg Prod.snd heq
      simp at this
      omega
    · exfalso
      have hRel := (List.pairwise_iff_getElem.mp hsorted) j k hjl hkl h
      rw [hkv, hjv] at hRel
      simp at hRel
      omega
  refine ⟨k, hkj, ?_⟩
  have htake2 : ((sortDesc (rows.map (fun row =>
      (row, get_best_match_score cols row q exclude_columns)))).take 10)[k]? =
      (sortDesc (rows.map (fun row =>
        (row, get_best_match_score cols row q exclude_columns))))[k]? :=
    List.getElem?_take_of_lt (lt_trans hkj hj10)
  rw [hout, htake2, hA100]
  exact hk

/-- C7 counterexample: with the empty query, record A = [""] has a
non-excluded non-null field exactly matching the query case-insensitively,
and record B = [NULL] has no non-null field at all, yet B (received first)
precedes A in the ranked result, because the library scores an exact match
of the empty string as 0 and the stable sort keeps input order. -/
theorem c7_counterexample :
    (([some ([] : Str)] : Row) ∈
      ([[none], [some ([] : Str)]] : List Row)) ∧
    (["name".toList] : List Str)[0]? = some "name".toList ∧
    "name".toList ∉ exclude_columns ∧
    (([some ([] : Str)] : Row))[0]? = some (some ([] : Str)) ∧
    pyLower ([] : Str) = pyLower ([] : Str) ∧
    (∀ v ∈ ([none] : Row), v = none) ∧
    get_best_match_score ["name".toList] [none] [] exclude_columns < 100 ∧
    ¬ (∀ j : Nat,
        (perform_fuzzy_search ["name".toList] [[none], [some ([] : Str)]] [])[j]? =
          some ([none],
            get_best_match_score ["name".toList] [none] [] exclude_columns) →
        ∃ k : Nat, k < j ∧
          (perform_fuzzy_search ["name".toList] [[none], [some ([] : Str)]] [])[k]? =
            some ([some ([] : Str)],
              get_best_match_score ["name".toList] [some ([] : Str)] []
                exclude_columns)) := by
  refine ⟨by decide, by decide, by decide, by decide, by decide, by decide,
    by decide, ?_⟩
  intro h
  obtain ⟨k, hk, _⟩ := h 0 (by decide)
  exact absurd hk (Nat.not_lt_zero k)

theorem c7_witness :
    (([some "AB".toList] : Row) ∈
      ([[some "AB".toList], [none]] : List Row)) ∧
    ("ab".toList : Str) ≠ [] ∧
    (["name".toList] : List Str)[0]? = some "name".toList ∧
    "name".toList ∉ exclude_columns ∧
    (([some "AB".toList] : Row))[0]? = some (some "AB".toList) ∧
    pyLower "AB".toList = pyLower "ab".toList ∧
    get_best_match_score ["name".toList] [none] "ab".toList exclude_columns
      < 100 ∧
    (∀ j : Nat,
        (perform_fuzzy_search ["name".toList] [[some "AB".toList], [none]]
          "ab".toList)[j]? =
          some ([none],
            get_best_match_score ["name".toList] [none] "ab".toList
              exclude_columns) →
        ∃ k : Nat, k < j ∧
          (perform_fuzzy_search ["name".toList] [[some "AB".toList], [none]]
            "ab".toList)[k]? =
            some ([some "AB".toList],
              get_best_match_score ["name".toList] [some "AB".toList]
                "ab".toList exclude_columns)) :=
  ⟨by decide, by decide, by decide, by decide, by decide, by decide, by decide,
    c7_exact_match_ranks_above ["name".toList] [[some "AB".toList], [none]]
      "ab".toList [some "AB".toList] [none] (by decide) (by decide) 0
      "name".toList "AB".toList (by decide) (by decide) (by decide)
      (by decide) (by decide)⟩

theorem c2_witness :
    ("a".toList.length + "ab".toList.length ≠ 0) ∧
    field_score "a".toList "ab".toList =
      intr (100 * (2 * lcsLen (pyLower "a".toList) (pyLower "ab".toList)))
        ("a".toList.length + "ab".toList.length) :=
  ⟨by decide,
    c2_field_score_is_levenshtein_ratio "a".toList "ab".toList (by decide)⟩

theorem c6_witness :
    (["uuid".toList, "name".toList] : List Str)[0]? = some "uuid".toList ∧
    "uuid".toList ∈ exclude_columns ∧
    get_best_match_score ["uuid".toList, "name".toList]
        (([some "x".toList, none] : Row).set 0 (some "y".toList)) "q".toList
        exclude_columns =
      get_best_match_score ["uuid".toList, "name".toList]
        [some "x".toList, none] "q".toList exclude_columns :=
  ⟨by decide, by decide,
    c6_excluded_fields_no_influence ["uuid".toList, "name".toList]
      [some "x".toList, none] "q".toList exclude_columns 0 "uuid".toList
      (some "y".toList) (by decide) (by decide)⟩

theorem c10_witness :
    pyLower "AbC".toList = pyLower "abc".toList ∧
    get_best_match_score ["name".toList] [none] "AbC".toList exclude_columns =
      get_best_match_score ["name".toList] [none] "abc".toList
        exclude_columns :=
  ⟨by decide,
    c10_query_case_invariance ["name".toList] [none] exclude_columns
      "AbC".toList "abc".toList (by decide)⟩
